import Mathlib

/-!
Verification of the `KnowledgeParser` core of the AI_NovelGenerator repository.

This file is a shallow embedding, in Lean 4, of the algorithmic core of
`novel_generator/knowledge_parser.py` and `novel_generator/common.py`:

* text segmentation (`split_text_into_segments`),
* the concurrent per-segment dispatcher (`_process_segment_concurrently`),
* the hierarchical group-of-4 merger (`_hierarchical_merge_results`,
  `_ai_merge_group`, `_fallback_merge_group`),
* the deterministic structural merges (`_merge_worldview_data`,
  `_merge_dict_data`, `_merge_character_lists`),
* the retry wrapper (`invoke_with_cleaning`) and the vector-context
  retriever (`extract_with_vector_context`).

Python JSON-like values are modelled by the inductive type `JValue`
(dicts as insertion-ordered association lists, which is how CPython
dicts behave).  External effects are modelled by explicit oracles:
the LLM completion service is a function from attempt number (or group)
to an outcome, the thread pool's nondeterministic completion order is an
explicit permutation of the task list, and a Python exception is the
`Except.error` case.  Exceptions raised *and caught* inside the source
are folded into the corresponding outcome constructors.
-/

namespace KnowledgeParser

/-- Model of a Python JSON-like value (the values produced by `json.loads`
and manipulated by the merge routines).  Objects are insertion-ordered
association lists, as CPython dicts are. -/
inductive JValue where
  | jnull
  | jbool (b : Bool)
  | jnum (n : Int)
  | jstr (s : String)
  | jarr (xs : List JValue)
  | jobj (fields : List (String × JValue))

mutual

/-- Structural (Python `==`-like) equality test on `JValue`. -/
def jvalBeq : JValue → JValue → Bool
  | .jnull, .jnull => true
  | .jbool a, .jbool b => a == b
  | .jnum a, .jnum b => a == b
  | .jstr a, .jstr b => a == b
  | .jarr xs, .jarr ys => jvalListBeq xs ys
  | .jobj xs, .jobj ys => jvalFieldsBeq xs ys
  | _, _ => false

/-- Elementwise equality of `JValue` lists. -/
def jvalListBeq : List JValue → List JValue → Bool
  | [], [] => true
  | x :: xs, y :: ys => jvalBeq x y && jvalListBeq xs ys
  | _, _ => false

/-- Elementwise equality of `JValue` object fields. -/
def jvalFieldsBeq : List (String × JValue) → List (String × JValue) → Bool
  | [], [] => true
  | (k, v) :: xs, (k', v') :: ys => k == k' && jvalBeq v v' && jvalFieldsBeq xs ys
  | _, _ => false

end

mutual

/-- Size of a JSON-like value (used as recursion fuel for the nested
dict merge). -/
def jvalSize : JValue → Nat
  | .jnull => 1
  | .jbool _ => 1
  | .jnum _ => 1
  | .jstr _ => 1
  | .jarr xs => 1 + jvalListSize xs
  | .jobj fs => 1 + jvalFieldsSize fs

/-- Total size of a list of values. -/
def jvalListSize : List JValue → Nat
  | [] => 0
  | x :: rest => jvalSize x + jvalListSize rest

/-- Total size of a dict's items. -/
def jvalFieldsSize : List (String × JValue) → Nat
  | [] => 0
  | (_, v) :: rest => 1 + jvalSize v + jvalFieldsSize rest

end

/-- Membership test for `JValue` sets, via `jvalBeq`. -/
def jvalMem (v : JValue) : List JValue → Bool
  | [] => false
  | x :: rest => jvalBeq v x || jvalMem v rest

/-- Python truthiness of a JSON-like value (`bool(v)`). -/
def pyTruthy : JValue → Bool
  | .jnull => false
  | .jbool b => b
  | .jnum n => n != 0
  | .jstr s => s != ""
  | .jarr l => !l.isEmpty
  | .jobj fs => !fs.isEmpty

mutual

/-- Python `repr` of a JSON-like value, approximated (string escapes are
not reproduced; the merge routines only compare these strings for
equality, and the claims never exercise strings needing escapes). -/
def pyRepr : JValue → String
  | .jnull => "None"
  | .jbool true => "True"
  | .jbool false => "False"
  | .jnum n => toString n
  | .jstr s => "'" ++ s ++ "'"
  | .jarr xs => "[" ++ pyReprList xs ++ "]"
  | .jobj fs => "\x7b" ++ pyReprFields fs ++ "\x7d"

/-- Comma-separated `repr` of list elements. -/
def pyReprList : List JValue → String
  | [] => ""
  | [x] => pyRepr x
  | x :: y :: rest => pyRepr x ++ ", " ++ pyReprList (y :: rest)

/-- Comma-separated `repr` of dict items. -/
def pyReprFields : List (String × JValue) → String
  | [] => ""
  | [(k, v)] => "'" ++ k ++ "': " ++ pyRepr v
  | (k, v) :: f :: rest => "'" ++ k ++ "': " ++ pyRepr v ++ ", " ++ pyReprFields (f :: rest)

end

/-- Python `str()` of a JSON-like value: the identity on strings,
`repr`-like elsewhere.  Used by the list de-duplication in
`_merge_dict_data` / `_merge_worldview_data` (`str(item)`). -/
def pyStr : JValue → String
  | .jstr s => s
  | v => pyRepr v

/-- Dict lookup (`d[k]` / `k in d`): first matching key.  CPython dicts
have unique keys, which every constructor in the source maintains. -/
def lookupKey : List (String × JValue) → String → Option JValue
  | [], _ => none
  | (k', v') :: rest, k => if k' = k then some v' else lookupKey rest k

/-- Dict assignment `d[k] = v`: replaces in place if the key is present,
appends otherwise (CPython insertion-order semantics). -/
def setKey : List (String × JValue) → String → JValue → List (String × JValue)
  | [], k, v => [(k, v)]
  | (k', v') :: rest, k, v =>
    if k' = k then (k', v) :: rest else (k', v') :: setKey rest k v

/-- `d.get(key, dflt)`. -/
def pyGetDefault (fs : List (String × JValue)) (key : String) (dflt : JValue) : JValue :=
  match lookupKey fs key with
  | some v => v
  | none => dflt

/-! ### Python string primitives -/

/-- Python `s.strip()` on the character list: drop whitespace from both
ends (ASCII whitespace; the sources under test are ASCII/CJK without the
exotic Unicode spaces where Python and `Char.isWhitespace` differ). -/
def pyStripChars (l : List Char) : List Char :=
  ((l.dropWhile Char.isWhitespace).reverse.dropWhile Char.isWhitespace).reverse

/-- Python `s.strip()` on strings. -/
def pyStrip (s : String) : String :=
  String.mk (pyStripChars s.toList)

/-- Python `s.replace(pat, "")` for a pattern given as a character list:
remove every occurrence, scanning left to right, non-overlapping.  The
scan consumes at least one character per step, so `fuel = length of the
input` realises the unbounded scan (the `0, c :: rest` branch is
unreachable; `removeOccurrencesF_fuel` below). -/
def removeOccurrencesF (pat : List Char) : Nat → List Char → List Char
  | _, [] => []
  | 0, c :: rest => c :: rest
  | fuel + 1, c :: rest =>
    if pat.isEmpty then c :: rest
    else if pat.isPrefixOf (c :: rest) then
      removeOccurrencesF pat fuel ((c :: rest).drop pat.length)
    else c :: removeOccurrencesF pat fuel rest

/-- Python `s.replace(pat, "")`. -/
def removeOccurrences (pat : List Char) (l : List Char) : List Char :=
  removeOccurrencesF pat l.length l

/-- Python `s.split()`: split on runs of whitespace, dropping empties.
Each step consumes at least one character, so `fuel = length of the
input` realises the unbounded scan (the `0, c :: rest` branch is
unreachable; `pySplitWsF_fuel` below). -/
def pySplitWsF : Nat → List Char → List (List Char)
  | _, [] => []
  | 0, _ :: _ => []
  | fuel + 1, c :: rest =>
    if c.isWhitespace then pySplitWsF fuel rest
    else
      ((c :: rest).takeWhile (fun ch => !ch.isWhitespace)) ::
        pySplitWsF fuel ((c :: rest).dropWhile (fun ch => !ch.isWhitespace))

/-- Python `s.split()`. -/
def pySplitWs (l : List Char) : List (List Char) :=
  pySplitWsF l.length l

/-- Python `sep.join(parts)`. -/
def pyJoin (sep : String) : List String → String
  | [] => ""
  | [x] => x
  | x :: y :: rest => x ++ sep ++ pyJoin sep (y :: rest)

/-- Python `s[:n]` (first `n` code points). -/
def strTake (s : String) (n : Nat) : String :=
  String.mk (s.toList.take n)

/-- `f"seg_{n:03d}"`: zero-pad to at least three digits. -/
def segIdStr (n : Nat) : String :=
  let s := toString n
  "seg_" ++ (if s.length < 3 then String.mk (List.replicate (3 - s.length) '0') ++ s else s)

/-! ### Segmenter (`preprocess_text`, `split_text_into_segments`)

The jieba tokenizer is an external dependency; it is modelled by a
parameter `cut : String → List String` (the list of words of a string;
jieba guarantees the concatenation of the words is the input). -/

/-- One chunk produced by the segmenter: the dict
`{"text", "order", "start_pos", "end_pos", "segment_id"}`. -/
structure Segment where
  text : String
  order : Nat
  start_pos : Nat
  end_pos : Nat
  segment_id : String
  deriving DecidableEq, Repr

/-- `KnowledgeParser.preprocess_text`: collapse runs of whitespace into
single spaces (`' '.join(content.split())`); empty or blank input gives
`""`. -/
def preprocessText (content : String) : String :=
  if pyStrip content = "" then ""
  else pyJoin " " ((pySplitWs content.toList).map String.mk)

/-- The word-boundary scan of `split_text_into_segments` (lines 133-139):
walk the words accumulating lengths; at the first word that would push
the running total beyond 90% of `segment_size`, return the total so far
(Python leaves `split_point = 0` when no word triggers the bound).

The source compares `total_length + len(word) > segment_size * 0.9` in
floating point; for integer operands this is equivalent to the exact
rational comparison `10 * (total + len) > 9 * segment_size` (0.9 rounds
up in binary, and `segment_size * 0.9` never rounds strictly below an
integer), which is what is used here. -/
def computeSplitPoint (words : List String) (segment_size : Nat) : Nat :=
  go words 0
where
  /-- The scanning loop; `total` is `total_length`. -/
  go : List String → Nat → Nat
    | [], _ => 0
    | w :: ws, total =>
      if (total + w.length) * 10 > segment_size * 9 then total
      else go ws (total + w.length)

/-- The body of one iteration of the slicing loop of
`split_text_into_segments` (lines 123-143): the raw slice
`content[i:i+segment_size]`, shortened to a word boundary for non-final
chunks.  Returns the chunk's text and `actual_end`; `actual_start` is
`i`. -/
def chunkAt (cut : String → List String) (content : List Char) (segment_size i : Nat) :
    String × Nat :=
  let segment := (content.drop i).take segment_size
  if i + segment_size < content.length then
    let words := cut (String.mk segment)
    if words.length > 1 then
      let split_point := computeSplitPoint words segment_size
      if split_point > 0 then
        (String.mk ((content.drop i).take split_point), i + split_point)
      else (String.mk segment, i + segment.length)
    else (String.mk segment, i + segment.length)
  else (String.mk segment, i + segment.length)

/-- Filtering and numbering of the sliced chunks (lines 145-153): keep
chunks whose text is non-blank after stripping, numbering the retained
ones sequentially from `count + 1`.  Input triples are
`(text, actual_start, actual_end)`. -/
def numberSegments : List (String × Nat × Nat) → Nat → List Segment
  | [], _ => []
  | (text, s, e) :: rest, count =>
    if pyStrip text ≠ "" then
      ⟨pyStrip text, count + 1, s, e, segIdStr (count + 1)⟩ :: numberSegments rest (count + 1)
    else numberSegments rest count

/-- `KnowledgeParser.split_text_into_segments(content, segment_size)`.
The cursor `i` ranges over `range(0, len(content), segment_size)`; note
that it advances by `segment_size` even when the chunk was shortened to
`split_point` characters, exactly as in the source.  The
`except`-fallback of the source (lines 158-174) is unreachable here
because the modelled tokenizer `cut` is a total function. -/
def splitTextIntoSegments (cut : String → List String) (content : String)
    (segment_size : Nat) : List Segment :=
  if pyStrip content = "" then []
  else if content.length ≤ segment_size then
    [⟨content, 1, 0, content.length, "seg_001"⟩]
  else
    let cs := content.toList
    let starts := (List.range' 0 ((cs.length + segment_size - 1) / segment_size) segment_size)
    numberSegments
      (starts.map (fun i =>
        let (text, e) := chunkAt cut cs segment_size i
        (text, i, e)))
      0

/-! ### Structural (fallback) merges
(`_merge_dict_data`, `_merge_worldview_data`, `_merge_character_lists`)

A raised Python exception is modelled as `Except.error ()`. -/

/-- Python's substring test `pat in s` on character lists. -/
def strContains (pat : List Char) : List Char → Bool
  | [] => pat.isEmpty
  | c :: rest => pat.isPrefixOf (c :: rest) || strContains pat rest

/-- The list-merge used for equal keys holding lists: append the items of
`newl` whose `str()` is not already among the `str()`s of the
accumulated list (`existing_items` is a set of strings). -/
def dedupExtendGo : List JValue → List JValue → List String → List JValue
  | [], acc, _ => acc
  | x :: rest, acc, seen =>
    if seen.contains (pyStr x) then dedupExtendGo rest acc seen
    else dedupExtendGo rest (acc ++ [x]) (seen ++ [pyStr x])

/-- `existing_items = {str(item) for item in base}` followed by the
append loop. -/
def dedupExtend (base newl : List JValue) : List JValue :=
  dedupExtendGo newl base (base.map pyStr)

/-- `KnowledgeParser._merge_dict_data(base_dict, new_dict)`: iterate the
incoming dict's items into a copy of the base; an absent key is copied,
two dicts recurse, two lists are de-dup-appended, and any other clash
keeps the base value (the source has no other branch).  The recursion
descends both along the item list and into nested dict values; both
strictly decrease `jvalFieldsSize` of the incoming dict, so
`fuel = jvalFieldsSize new_dict` realises the unbounded recursion (the
`0, _ :: _` branch is unreachable; `mergeDictDataF_fuel` below). -/
def mergeDictDataF : Nat → List (String × JValue) → List (String × JValue) →
    List (String × JValue)
  | _, merged, [] => merged
  | 0, merged, _ :: _ => merged
  | fuel + 1, merged, (k, v) :: rest =>
    let merged' :=
      match lookupKey merged k with
      | none => merged ++ [(k, v)]
      | some bv =>
        match bv, v with
        | .jobj bd, .jobj nd => setKey merged k (.jobj (mergeDictDataF fuel bd nd))
        | .jarr bl, .jarr nl => setKey merged k (.jarr (dedupExtend bl nl))
        | _, _ => merged
    mergeDictDataF fuel merged' rest

/-- `KnowledgeParser._merge_dict_data(base_dict, new_dict)`. -/
def mergeDictData (base_dict new_dict : List (String × JValue)) : List (String × JValue) :=
  mergeDictDataF (jvalFieldsSize new_dict) base_dict new_dict

/-- The item loop of `_merge_worldview_data` (lines 866-883): like
`_merge_dict_data` but with list before dict, plus a string-append
branch: if both values are strings and the incoming one is not a
substring of the base, append it on a new line. -/
def mergeWorldviewLoop : List (String × JValue) → List (String × JValue) → List (String × JValue)
  | merged, [] => merged
  | merged, (k, v) :: rest =>
    let merged' :=
      match lookupKey merged k with
      | none => merged ++ [(k, v)]
      | some bv =>
        match bv, v with
        | .jarr bl, .jarr nl => setKey merged k (.jarr (dedupExtend bl nl))
        | .jobj bd, .jobj nd => setKey merged k (.jobj (mergeDictData bd nd))
        | .jstr bs, .jstr ns =>
          if strContains ns.toList bs.toList then merged
          else setKey merged k (.jstr (bs ++ "\n" ++ ns))
        | _, _ => merged
    mergeWorldviewLoop merged' rest

/-- `KnowledgeParser._merge_worldview_data(base_data, new_data)`. -/
def mergeWorldviewData (base_data new_data : List (String × JValue)) : List (String × JValue) :=
  if base_data.isEmpty then new_data
  else if new_data.isEmpty then base_data
  else mergeWorldviewLoop base_data new_data

/-- `char.get("name", "")` — raises `AttributeError` when the element is
not a dict. -/
def pyGetNameDflt : JValue → Except Unit JValue
  | .jobj fs => .ok (pyGetDefault fs "name" (.jstr ""))
  | _ => .error ()

/-- `{char.get("name", "") for char in base_list}` (as an ordered list;
only membership is used). -/
def namesOf : List JValue → Except Unit (List JValue)
  | [] => .ok []
  | c :: rest =>
    match pyGetNameDflt c with
    | .error e => .error e
    | .ok n =>
      match namesOf rest with
      | .error e => .error e
      | .ok ns => .ok (n :: ns)

/-- The inner search loop of `_merge_character_lists` (lines 927-930):
find the first entry of `merged` whose `.get("name")` (default `None`)
equals `char_name`, replace it by the field-level deep merge with the
incoming character, and stop.  Scanned elements must be dicts
(`.get` on anything else raises). -/
def replaceFirstByName : List JValue → JValue → List (String × JValue) →
    Except Unit (List JValue)
  | [], _, _ => .ok []
  | ec :: rest, nm, nfs =>
    match ec with
    | .jobj efs =>
      if jvalBeq (pyGetDefault efs "name" .jnull) nm then
        .ok (.jobj (mergeDictData efs nfs) :: rest)
      else
        match replaceFirstByName rest nm nfs with
        | .error e => .error e
        | .ok rest' => .ok (.jobj efs :: rest')
    | _ => .error ()

/-- The main loop of `_merge_character_lists` over the incoming list:
a truthy unseen name is appended (and recorded); a seen name triggers the
in-place deep merge; a non-truthy unseen name is silently dropped. -/
def mergeCharsLoop : List JValue → List JValue → List JValue → Except Unit (List JValue)
  | [], merged, _ => .ok merged
  | nc :: rest, merged, names =>
    match nc with
    | .jobj nfs =>
      let char_name := pyGetDefault nfs "name" (.jstr "")
      if pyTruthy char_name && !jvalMem char_name names then
        mergeCharsLoop rest (merged ++ [.jobj nfs]) (names ++ [char_name])
      else if jvalMem char_name names then
        match replaceFirstByName merged char_name nfs with
        | .error e => .error e
        | .ok merged' => mergeCharsLoop rest merged' names
      else mergeCharsLoop rest merged names
    | _ => .error ()

/-- `KnowledgeParser._merge_character_lists(base_list, new_list)`. -/
def mergeCharacterLists (base_list new_list : List JValue) : Except Unit (List JValue) :=
  if base_list.isEmpty then .ok new_list
  else if new_list.isEmpty then .ok base_list
  else
    match namesOf base_list with
    | .error e => .error e
    | .ok existing_names => mergeCharsLoop new_list base_list existing_names

/-! ### Hierarchical merger
(`_hierarchical_merge_results`, `_ai_merge_group`, `_fallback_merge_group`)

The completion-service call inside `_ai_merge_group` is modelled by an
oracle `ai : List JValue → AIResp` giving, per group, the cleaned LLM
response after `invoke_with_cleaning` and `json.loads`:
blank (`.empty`), not JSON (`.notJson`), or a parsed value (`.parsed v`,
where `v = .jnull` models `json.loads` returning Python `None`).
`invoke_with_cleaning` never raises (proved below) and `json.dumps`
cannot fail on these values, so the outer `except` of `_ai_merge_group`
only fires when `_fallback_merge_group` itself raises out of the inner
handler; the handler then calls the (deterministic) fallback again,
which raises again, so the net effect is exactly the fallback's
outcome. -/

/-- Per-group outcome of the AI merge call. -/
inductive AIResp where
  | empty
  | notJson
  | parsed (v : JValue)

/-- The `merge_func` argument threaded into `_hierarchical_merge_results`:
the source passes one of two bound methods. -/
inductive MergeFunc where
  | worldviewData
  | characterLists

/-- Applying the chosen `merge_func` to two dicts, as the non-characters
branch of `_fallback_merge_group` does.  `_merge_worldview_data` is total
on dicts; `_merge_character_lists` applied to dicts returns early only
when one side is empty and otherwise raises at
`char.get` (iterating a dict yields its string keys).  The source only
ever pairs `characterLists` with `extraction_type = "characters"`, where
`merge_func` is unused. -/
def applyMergeFunc : MergeFunc → List (String × JValue) → List (String × JValue) →
    Except Unit (List (String × JValue))
  | .worldviewData, base, new => .ok (mergeWorldviewData base new)
  | .characterLists, base, new =>
    if base.isEmpty then .ok new
    else if new.isEmpty then .ok base
    else .error ()

/-- `{} if extraction_type != "characters" else []`. -/
def emptyValue (extraction_type : String) : JValue :=
  if extraction_type ≠ "characters" then .jobj [] else .jarr []

/-- The characters branch of `_fallback_merge_group`: fold
`_merge_character_lists` over the group's list-shaped items, starting
from `[]`; non-list items are skipped. -/
def fallbackMergeChars : List JValue → List JValue → Except Unit (List JValue)
  | [], result => .ok result
  | item :: rest, result =>
    match item with
    | .jarr l =>
      match mergeCharacterLists result l with
      | .error e => .error e
      | .ok r => fallbackMergeChars rest r
    | _ => fallbackMergeChars rest result

/-- The non-characters branch of `_fallback_merge_group`: fold
`merge_func` over the group's dict-shaped items, starting from `{}`;
non-dict items are skipped. -/
def fallbackMergeDicts (mf : MergeFunc) : List JValue → List (String × JValue) →
    Except Unit (List (String × JValue))
  | [], result => .ok result
  | item :: rest, result =>
    match item with
    | .jobj fs =>
      match applyMergeFunc mf result fs with
      | .error e => .error e
      | .ok r => fallbackMergeDicts mf rest r
    | _ => fallbackMergeDicts mf rest result

/-- `KnowledgeParser._fallback_merge_group(group, merge_func, extraction_type)`. -/
def fallbackMergeGroup (mf : MergeFunc) (extraction_type : String) (group : List JValue) :
    Except Unit JValue :=
  if extraction_type = "characters" then
    match fallbackMergeChars group [] with
    | .error e => .error e
    | .ok l => .ok (.jarr l)
  else
    match fallbackMergeDicts mf group [] with
    | .error e => .error e
    | .ok fs => .ok (.jobj fs)

/-- `KnowledgeParser._ai_merge_group(group, merge_func, extraction_type, ...)`
(the `level` and `group_num` arguments only feed log messages and are
omitted).  A parsed response is returned as-is, whatever its shape —
including the JSON literal `null` (Python `None`). -/
def aiMergeGroup (ai : List JValue → AIResp) (mf : MergeFunc) (extraction_type : String)
    (group : List JValue) : Except Unit JValue :=
  match group with
  | [] => .ok (emptyValue extraction_type)
  | [x] => .ok x
  | _ =>
    match ai group with
    | .parsed v => .ok v
    | .empty => fallbackMergeGroup mf extraction_type group
    | .notJson => fallbackMergeGroup mf extraction_type group

/-- `range(0, len(l), group_size)` slicing: consecutive groups of up to
`k` elements (`k = 0` never occurs; Python `range` would raise).  Each
step consumes at least one element for `k ≥ 1`, so `fuel = length of the
input` realises the unbounded slicing (the `0, _, _ :: _` branch is
unreachable; `groupsOfF_fuel` below). -/
def groupsOfF : Nat → Nat → List JValue → List (List JValue)
  | _, _, [] => []
  | _, 0, x :: xs => [x :: xs]
  | 0, _ + 1, _ :: _ => []
  | fuel + 1, k' + 1, x :: xs =>
    ((x :: xs).take (k' + 1)) :: groupsOfF fuel (k' + 1) ((x :: xs).drop (k' + 1))

/-- `range(0, len(l), group_size)` slicing into groups of up to `k`. -/
def groupsOf (k : Nat) (l : List JValue) : List (List JValue) :=
  groupsOfF l.length k l

/-- The inner `for` loop of one merge level (lines 205-211): merge each
group and append the result to the next level's list when it
`is not None` (`.jnull` models Python `None`). -/
def collectMerged (mergeGroup : List JValue → Except Unit JValue) :
    List (List JValue) → List JValue → Except Unit (List JValue)
  | [], acc => .ok acc
  | g :: gs, acc =>
    match mergeGroup g with
    | .error e => .error e
    | .ok m =>
      match m with
      | .jnull => collectMerged mergeGroup gs acc
      | m' => collectMerged mergeGroup gs (acc ++ [m'])

/-- One full level: group, merge, collect. -/
def mergeLevel (mergeGroup : List JValue → Except Unit JValue) (gs : Nat)
    (cur : List JValue) : Except Unit (List JValue) :=
  collectMerged mergeGroup (groupsOf gs cur) []

/-- The `while len(current_results) > 1` loop, with explicit fuel.  The
loop strictly shrinks the list at every iteration (each level's length
is at most `⌈len/group_size⌉ < len` for `len > 1`, `group_size ≥ 2`), so
`fuel = initial length` realises the unbounded Python loop;
`hmLoop_fuel_eq` below proves any larger fuel gives the same result. -/
def hmLoop (mergeGroup : List JValue → Except Unit JValue) (gs : Nat) :
    Nat → List JValue → Except Unit (List JValue)
  | 0, cur => .ok cur
  | fuel + 1, cur =>
    if cur.length > 1 then
      match mergeLevel mergeGroup gs cur with
      | .error e => .error e
      | .ok next => hmLoop mergeGroup gs fuel next
    else .ok cur

/-- `KnowledgeParser._hierarchical_merge_results(results, merge_func,
extraction_type, group_size)`, with the group-merge step abstracted as
`mergeGroup` (the source calls `self._ai_merge_group(group, merge_func,
extraction_type, ...)` there). -/
def hierarchicalMergeResults (results : List JValue)
    (mergeGroup : List JValue → Except Unit JValue) (extraction_type : String)
    (group_size : Nat) : Except Unit JValue :=
  match results with
  | [] => .ok (emptyValue extraction_type)
  | [x] => .ok x
  | _ =>
    match hmLoop mergeGroup group_size results.length results with
    | .error e => .error e
    | .ok cur =>
      .ok (match cur with
        | [] => emptyValue extraction_type
        | c :: _ => c)

/-! ### Retry wrapper (`novel_generator/common.py::invoke_with_cleaning`) -/

/-- Outcome of one `llm_adapter.invoke(prompt)` call: the adapter either
returns a string or raises. -/
inductive AttemptResult where
  | raised
  | returned (s : String)

/-- The response cleaning of `invoke_with_cleaning`:
`result.replace("\x60\x60\x60json", "").replace("\x60\x60\x60", "").strip()`. -/
def cleanLLMResult (s : String) : String :=
  pyStrip (String.mk (removeOccurrences "```".toList
    (removeOccurrences "```json".toList s.toList)))

/-- What the retry loop observes of an attempt: the cleaned text, with a
raised exception indistinguishable from a blank response (both retry). -/
def cleanedOf : AttemptResult → String
  | .raised => ""
  | .returned s => cleanLLMResult s

/-- The observable trace of one `invoke_with_cleaning` call: the returned
string, the number of `llm_adapter.invoke` calls made, and the total
seconds slept (`time.sleep(2)` between attempts). -/
structure InvokeTrace where
  result : String
  calls : Nat
  sleepSeconds : Nat
  deriving DecidableEq, Repr

/-- The `while retry_count < max_retries` loop of `invoke_with_cleaning`.
`attempt k` is the outcome of the `k`-th (0-based) `invoke` call;
`k` is `retry_count`, `result` the like-named Python variable.  A
non-blank cleaned response returns immediately; a blank response or an
exception sleeps 2 seconds (when another attempt remains) and retries.
When a returned response cleans to `""`, Python stores `""` in `result`
whether or not the raw response was empty, so threading `cleanedOf`
is exact. -/
def invokeLoop (attempt : Nat → AttemptResult) (max_retries : Nat) :
    Nat → Nat → String → Nat → InvokeTrace
  | 0, k, result, sleeps => ⟨result, k, sleeps⟩
  | fuel + 1, k, result, sleeps =>
    if k < max_retries then
      let cleaned := cleanedOf (attempt k)
      if cleaned ≠ "" then ⟨cleaned, k + 1, sleeps⟩
      else
        invokeLoop attempt max_retries fuel (k + 1)
          (match attempt k with
            | .raised => result
            | .returned _ => cleaned)
          (if k + 1 < max_retries then sleeps + 2 else sleeps)
    else ⟨result, k, sleeps⟩

/-- `invoke_with_cleaning(llm_adapter, prompt, max_retries)`: run the
retry loop from `retry_count = 0`, `result = ""`.  Each iteration
increments `retry_count`, so `fuel = max_retries` realises the unbounded
`while` loop: the loop guard `k < max_retries` fails no later than the
fuel runs out, and the `0, ...` branch returns the same
`(result, k, sleeps)` the loop exit would.  The function catches every
exception of the adapter and returns normally (the model's return type
is total). -/
def invokeWithCleaning (attempt : Nat → AttemptResult) (max_retries : Nat) : InvokeTrace :=
  invokeLoop attempt max_retries max_retries 0 "" 0

/-! ### Context retriever (`extract_with_vector_context`) -/

/-- `KnowledgeParser.extract_with_vector_context(content, query, top_k)`.
`vector_store` is `none` when no similarity index is attached; otherwise
it is the `similarity_search` boundary, which returns the passages'
`page_content` strings or raises.  On no store or a raised search, the
first 2000 characters of `content` are returned; otherwise the passages
joined by blank lines. -/
def extractWithVectorContext
    (vector_store : Option (String → Nat → Except Unit (List String)))
    (content query : String) (top_k : Nat) : String :=
  match vector_store with
  | none => strTake content 2000
  | some search =>
    match search query top_k with
    | .ok results => pyJoin "\n\n" results
    | .error _ => strTake content 2000

/-! ### Concurrent dispatcher (`_process_segment_concurrently`)

Per-segment extraction (the inner `process_single_segment`) is abstracted
as `extract : Segment → Option JValue`; `none` covers blank responses,
shape errors, and exceptions — all recorded as "no result" by the
dispatcher.  The nondeterministic order in which `as_completed` yields
futures is an explicit parameter `completion_order` (a permutation of
`segments`); `max_workers` bounds parallelism only and cannot affect
which results are recorded, so it does not appear. -/

/-- `results_dict` lookup (`segment_order in results_dict`). -/
def lookupNat : List (Nat × JValue) → Nat → Option JValue
  | [], _ => none
  | (k', v') :: rest, k => if k' = k then some v' else lookupNat rest k

/-- `results_dict[segment_order] = result`. -/
def dictSetNat : List (Nat × JValue) → Nat → JValue → List (Nat × JValue)
  | [], k, v => [(k, v)]
  | (k', v') :: rest, k, v =>
    if k' = k then (k', v) :: rest else (k', v') :: dictSetNat rest k v

/-- The `as_completed` collection loop: record each non-`None` result
keyed by its chunk's `order`, in completion order. -/
def buildResultsDict (extract : Segment → Option JValue)
    (completion_order : List Segment) : List (Nat × JValue) :=
  completion_order.foldl
    (fun d s =>
      match extract s with
      | some r => dictSetNat d s.order r
      | none => d)
    []

/-- The re-ordering loop (lines 584-587): iterate `segments` in their
original order and append the recorded result when present. -/
def rebuildOrdered (d : List (Nat × JValue)) : List Segment → List JValue
  | [] => []
  | s :: rest =>
    match lookupNat d s.order with
    | some r => r :: rebuildOrdered d rest
    | none => rebuildOrdered d rest

/-- `KnowledgeParser._process_segment_concurrently(segments, ...)`. -/
def processSegmentConcurrently (extract : Segment → Option JValue)
    (segments completion_order : List Segment) : List JValue :=
  rebuildOrdered (buildResultsDict extract completion_order) segments

/-! ### Per-segment extraction (`process_single_segment`) and the
category pipelines (`extract_worldview`, `extract_characters`,
`extract_plot_outline`)

The LLM round trip of one segment (context retrieval, prompt build,
`invoke_with_cleaning`, `json.loads`) is abstracted by an oracle
`outcomes : Segment → LLMParse`. -/

/-- Observable outcome of the LLM call for one segment: blank response,
JSON-parsed value, non-JSON text (kept for the textual fallback parser),
or an exception inside the task (caught, logged, treated as no
result). -/
inductive LLMParse where
  | blank
  | json (v : JValue)
  | text (raw : String)
  | raised

/-- The `_segment_metadata` dict attached on the JSON path. -/
def segMetaFull (seg : Segment) : JValue :=
  .jobj [("order", .jnum seg.order), ("segment_id", .jstr seg.segment_id),
    ("start_pos", .jnum seg.start_pos), ("end_pos", .jnum seg.end_pos)]

/-- The `_segment_metadata` dict attached on the textual-fallback path
(no positions). -/
def segMetaShort (seg : Segment) : JValue :=
  .jobj [("order", .jnum seg.order), ("segment_id", .jstr seg.segment_id)]

/-- Attach metadata to every dict element of a character list
(non-dict elements are left alone, as in the source). -/
def attachMetaChars (meta : JValue) (l : List JValue) : List JValue :=
  l.map fun c =>
    match c with
    | .jobj fs => .jobj (setKey fs "_segment_metadata" meta)
    | other => other

/-- `_parse_worldview_text` / `_parse_plot_text`:
`{"raw_content": text, "parsed": False}`. -/
def parseTextFallbackDict (raw : String) : List (String × JValue) :=
  [("raw_content", .jstr raw), ("parsed", .jbool false)]

/-- The inner `process_single_segment(segment_data)` of
`_process_segment_concurrently`, given the segment's LLM outcome.
Unknown prompt templates return `None`; a blank response or an exception
returns `None`; a parsed character payload that is not a list returns
`None`; a parsed non-characters payload gets metadata only when it is a
dict and is otherwise returned unchanged (the source has no `else`);
non-JSON text goes through the category's textual fallback parser (whose
results are non-empty, hence truthy). -/
def processSingleSegment (extraction_type prompt_template_name : String)
    (outcome : LLMParse) (seg : Segment) : Option JValue :=
  if prompt_template_name ≠ "worldview" ∧ prompt_template_name ≠ "character" ∧
      prompt_template_name ≠ "plot" then none
  else
    match outcome with
    | .blank => none
    | .raised => none
    | .json v =>
      if extraction_type = "characters" then
        match v with
        | .jarr l => some (.jarr (attachMetaChars (segMetaFull seg) l))
        | _ => none
      else
        match v with
        | .jobj fs => some (.jobj (setKey fs "_segment_metadata" (segMetaFull seg)))
        | other => some other
    | .text raw =>
      if extraction_type = "worldview" ∨ extraction_type = "plot" then
        some (.jobj (setKey (parseTextFallbackDict raw) "_segment_metadata" (segMetaShort seg)))
      else if extraction_type = "characters" then
        some (.jarr (attachMetaChars (segMetaShort seg) [.jobj (parseTextFallbackDict raw)]))
      else none

/-- The final type guard of `extract_characters` (line 680):
`final_characters if isinstance(final_characters, list) else []`. -/
def characterTypeGuard : JValue → JValue
  | .jarr l => .jarr l
  | _ => .jarr []

/-- `KnowledgeParser.extract_characters(content)`: preprocess, segment
(default `segment_size = 50000`), dispatch, hierarchically merge with
`merge_func = _merge_character_lists`, then coerce a non-list merge
result to `[]`. -/
def extractCharacters (cut : String → List String) (outcomes : Segment → LLMParse)
    (completion_order : List Segment) (ai : List JValue → AIResp) (content : String) :
    Except Unit JValue :=
  let processed := preprocessText content
  if processed = "" then .ok (.jarr [])
  else
    let segments := splitTextIntoSegments cut processed 50000
    let segment_results := processSegmentConcurrently
      (fun s => processSingleSegment "characters" "character" (outcomes s) s)
      segments completion_order
    if segment_results.isEmpty then .ok (.jarr [])
    else
      match hierarchicalMergeResults segment_results
          (aiMergeGroup ai .characterLists "characters") "characters" 4 with
      | .error e => .error e
      | .ok final => .ok (characterTypeGuard final)

/-- `KnowledgeParser.extract_worldview(content)`: same pipeline with
`merge_func = _merge_worldview_data`; the merged value is returned
without any type guard. -/
def extractWorldview (cut : String → List String) (outcomes : Segment → LLMParse)
    (completion_order : List Segment) (ai : List JValue → AIResp) (content : String) :
    Except Unit JValue :=
  let processed := preprocessText content
  if processed = "" then .ok (.jobj [])
  else
    let segments := splitTextIntoSegments cut processed 50000
    let segment_results := processSegmentConcurrently
      (fun s => processSingleSegment "worldview" "worldview" (outcomes s) s)
      segments completion_order
    if segment_results.isEmpty then .ok (.jobj [])
    else
      hierarchicalMergeResults segment_results
        (aiMergeGroup ai .worldviewData "worldview") "worldview" 4

/-- `KnowledgeParser.extract_plot_outline(content)`: same pipeline with
`merge_func = _merge_worldview_data` and `extraction_type = "plot"`; the
merged value is returned without any type guard. -/
def extractPlotOutline (cut : String → List String) (outcomes : Segment → LLMParse)
    (completion_order : List Segment) (ai : List JValue → AIResp) (content : String) :
    Except Unit JValue :=
  let processed := preprocessText content
  if processed = "" then .ok (.jobj [])
  else
    let segments := splitTextIntoSegments cut processed 50000
    let segment_results := processSegmentConcurrently
      (fun s => processSingleSegment "plot" "plot" (outcomes s) s)
      segments completion_order
    if segment_results.isEmpty then .ok (.jobj [])
    else
      hierarchicalMergeResults segment_results
        (aiMergeGroup ai .worldviewData "plot") "plot" 4

/-! ### Concrete tokenizers used in the theorems below -/

/-- A tokenizer returning the whole string as one word.  It satisfies
jieba's contract (the concatenation of the words is the input), and when
a slice has a single word the segmenter never shortens it. -/
def cutWhole : String → List String := fun s => [s]

/-- A tokenizer that segments "abcd" into the two words "ab", "cd" (as a
dictionary-based segmenter may) and returns any other string whole.  It
satisfies jieba's contract: the concatenation of the words is the
input. -/
def cutAbcd : String → List String :=
  fun s => if s = "abcd" then ["ab", "cd"] else [s]

end KnowledgeParser

namespace KnowledgeParser

/-! ## Theorems

First, stability lemmas for the fuel-indexed loops: every fuel at least
the stated bound computes the same value, so the `def`s above with their
canonical fuel realise the unbounded Python loops they embed. -/

/-- Two sufficient fuels give the same replacement result: the fuel-0
branch of `removeOccurrencesF` is unreachable, so `removeOccurrences`
realises the unbounded scan. -/
theorem removeOccurrencesF_fuel (pat : List Char) :
    ∀ (n m : Nat) (l : List Char), l.length ≤ n → l.length ≤ m →
      removeOccurrencesF pat n l = removeOccurrencesF pat m l := by
  intro n
  induction n using Nat.strong_induction_on with
  | _ n ih =>
    intro m l hn hm
    cases l with
    | nil => cases n <;> cases m <;> rfl
    | cons c rest =>
      simp only [List.length_cons] at hn hm
      cases n with
      | zero => omega
      | succ n' =>
        cases m with
        | zero => omega
        | succ m' =>
          rw [removeOccurrencesF, removeOccurrencesF]
          cases hpe : pat.isEmpty with
          | true => simp [hpe]
          | false =>
            have hplen : 1 ≤ pat.length := by
              cases pat with
              | nil => simp at hpe
              | cons a as => simp
            have hdl : ((c :: rest).drop pat.length).length ≤ rest.length := by
              simp only [List.length_drop, List.length_cons]
              omega
            have h1 := ih n' (by omega) m' ((c :: rest).drop pat.length)
              (by omega) (by omega)
            have h2 := ih n' (by omega) m' rest (by omega) (by omega)
            cases hpre : pat.isPrefixOf (c :: rest) <;> simp [hpe, hpre, h1, h2]

/-- Two sufficient fuels give the same split result: the fuel-0 branch
of `pySplitWsF` is unreachable, so `pySplitWs` realises the unbounded
scan. -/
theorem pySplitWsF_fuel :
    ∀ (n m : Nat) (l : List Char), l.length ≤ n → l.length ≤ m →
      pySplitWsF n l = pySplitWsF m l := by
  intro n
  induction n using Nat.strong_induction_on with
  | _ n ih =>
    intro m l hn hm
    cases l with
    | nil => cases n <;> cases m <;> rfl
    | cons c rest =>
      simp only [List.length_cons] at hn hm
      cases n with
      | zero => omega
      | succ n' =>
        cases m with
        | zero => omega
        | succ m' =>
          rw [pySplitWsF, pySplitWsF]
          have hdw : ((c :: rest).dropWhile (fun ch => !ch.isWhitespace)).length ≤
              (c :: rest).length :=
            (List.dropWhile_sublist _).length_le
          simp only [List.length_cons] at hdw
          have h1 := ih n' (by omega) m' rest (by omega) (by omega)
          cases hw : c.isWhitespace with
          | true => simp [hw, h1]
          | false =>
            have hdw2 : (rest.dropWhile (fun ch => !ch.isWhitespace)).length ≤
                rest.length :=
              (List.dropWhile_sublist _).length_le
            have h2 := ih n' (by omega) m' (rest.dropWhile (fun ch => !ch.isWhitespace))
              (by omega) (by omega)
            simp [hw, h1, h2]

/-- Two sufficient fuels give the same grouping: the fuel-0 branch of
`groupsOfF` is unreachable, so `groupsOf` realises the unbounded
slicing. -/
theorem groupsOfF_fuel (k : Nat) :
    ∀ (n m : Nat) (l : List JValue), l.length ≤ n → l.length ≤ m →
      groupsOfF n k l = groupsOfF m k l := by
  intro n
  induction n using Nat.strong_induction_on with
  | _ n ih =>
    intro m l hn hm
    cases l with
    | nil => cases n <;> cases m <;> cases k <;> rfl
    | cons x xs =>
      simp only [List.length_cons] at hn hm
      cases n with
      | zero => omega
      | succ n' =>
        cases m with
        | zero => omega
        | succ m' =>
          cases k with
          | zero => rfl
          | succ k' =>
            rw [groupsOfF, groupsOfF]
            have hdl : ((x :: xs).drop (k' + 1)).length ≤ xs.length := by
              simp only [List.length_drop, List.length_cons]
              omega
            rw [ih n' (by omega) m' _ (by omega) (by omega)]

/-- Two sufficient fuels give the same dict merge: the fuel-0 branch of
`mergeDictDataF` is unreachable, so `mergeDictData` realises the
unbounded nested recursion of `_merge_dict_data`. -/
theorem mergeDictDataF_fuel :
    ∀ (n m : Nat) (base new : List (String × JValue)),
      jvalFieldsSize new ≤ n → jvalFieldsSize new ≤ m →
        mergeDictDataF n base new = mergeDictDataF m base new := by
  intro n
  induction n using Nat.strong_induction_on with
  | _ n ih =>
    intro m base new hn hm
    match new with
    | [] => cases n <;> cases m <;> rfl
    | (k, v) :: rest =>
      simp only [jvalFieldsSize] at hn hm
      have hv : 1 ≤ jvalSize v := by cases v <;> simp [jvalSize]
      cases n with
      | zero => omega
      | succ n' =>
      cases m with
      | zero => omega
      | succ m' =>
        rw [mergeDictDataF, mergeDictDataF]
        cases hbv : lookupKey base k with
        | none =>
          dsimp only
          exact ih n' (by omega) m' _ _ (by omega) (by omega)
        | some bv =>
          cases bv with
          | jobj bd =>
            cases v with
            | jobj nd =>
              simp only [jvalSize] at hv hn hm
              dsimp only
              rw [ih n' (by omega) m' bd nd (by omega) (by omega)]
              exact ih n' (by omega) m' _ _ (by omega) (by omega)
            | jnull => dsimp only; exact ih n' (by omega) m' _ _ (by omega) (by omega)
            | jbool b => dsimp only; exact ih n' (by omega) m' _ _ (by omega) (by omega)
            | jnum q => dsimp only; exact ih n' (by omega) m' _ _ (by omega) (by omega)
            | jstr s => dsimp only; exact ih n' (by omega) m' _ _ (by omega) (by omega)
            | jarr xs => dsimp only; exact ih n' (by omega) m' _ _ (by omega) (by omega)
          | jnull =>
            cases v <;> (dsimp only; exact ih n' (by omega) m' _ _ (by omega) (by omega))
          | jbool b =>
            cases v <;> (dsimp only; exact ih n' (by omega) m' _ _ (by omega) (by omega))
          | jnum q =>
            cases v <;> (dsimp only; exact ih n' (by omega) m' _ _ (by omega) (by omega))
          | jstr s =>
            cases v <;> (dsimp only; exact ih n' (by omega) m' _ _ (by omega) (by omega))
          | jarr bl =>
            cases v <;> (dsimp only; exact ih n' (by omega) m' _ _ (by omega) (by omega))

/-! Helper lemmas for the retry loop of `invoke_with_cleaning`. -/

/-- The loop never reports fewer calls than the attempt counter it
started from. -/
theorem invokeLoop_calls_ge (attempt : Nat → AttemptResult) (mr : Nat) :
    ∀ (fuel k : Nat) (r : String) (s : Nat),
      k ≤ (invokeLoop attempt mr fuel k r s).calls := by
  intro fuel
  induction fuel with
  | zero => intro k r s; simp [invokeLoop]
  | succ fuel ih =>
    intro k r s
    rw [invokeLoop]
    by_cases hk : k < mr
    · simp only [hk, if_true]
      by_cases hc : cleanedOf (attempt k) ≠ ""
      · simp [hc]
      · simp only [hc, if_false]
        exact le_trans (Nat.le_succ k) (ih (k + 1) _ _)
    · simp [hk]

/-- The loop makes at most `max_retries` calls (when started from an
attempt counter not yet past the bound). -/
theorem invokeLoop_calls_le (attempt : Nat → AttemptResult) (mr : Nat) :
    ∀ (fuel k : Nat) (r : String) (s : Nat), k ≤ mr →
      (invokeLoop attempt mr fuel k r s).calls ≤ mr := by
  intro fuel
  induction fuel with
  | zero => intro k r s hk; simpa [invokeLoop] using hk
  | succ fuel ih =>
    intro k r s hk
    rw [invokeLoop]
    by_cases hlt : k < mr
    · simp only [hlt, if_true]
      by_cases hc : cleanedOf (attempt k) ≠ ""
      · simpa [hc] using hlt
      · simp only [hc, if_false]
        exact ih (k + 1) _ _ hlt
    · simpa [hlt] using hk

/-- Total sleeping time: 2 seconds after every attempt except the last
one made. -/
theorem invokeLoop_sleeps (attempt : Nat → AttemptResult) (mr : Nat) :
    ∀ (fuel k : Nat) (r : String) (s : Nat), mr ≤ k + fuel →
      (invokeLoop attempt mr fuel k r s).sleepSeconds =
        s + 2 * ((invokeLoop attempt mr fuel k r s).calls - 1 - k) := by
  intro fuel
  induction fuel with
  | zero =>
    intro k r s hmr
    simp [invokeLoop]
  | succ fuel ih =>
    intro k r s hmr
    rw [invokeLoop]
    by_cases hlt : k < mr
    · simp only [hlt, if_true]
      by_cases hc : cleanedOf (attempt k) ≠ ""
      · simp [hc]
      · simp only [hc, if_false]
        rw [ih (k + 1) _ _ (by omega)]
        by_cases hnext : k + 1 < mr
        · simp only [hnext, if_true]
          have hge : k + 2 ≤ (invokeLoop attempt mr fuel (k + 1)
              (match attempt k with
                | AttemptResult.raised => r
                | AttemptResult.returned _ => cleanedOf (attempt k))
              (s + 2)).calls := by
            have h0 := invokeLoop_calls_ge attempt mr fuel (k + 1)
              (match attempt k with
                | AttemptResult.raised => r
                | AttemptResult.returned _ => cleanedOf (attempt k))
              (s + 2)
            rcases Nat.lt_or_ge fuel 0 with h | h
            · omega
            · -- at attempt counter `k + 1 < mr` with fuel left the loop
              -- makes at least one more call
              cases fuel with
              | zero => omega
              | succ fuel' =>
                rw [invokeLoop] at h0 ⊢
                simp only [hnext, if_true] at h0 ⊢
                by_cases hc2 : cleanedOf (attempt (k + 1)) ≠ ""
                · simp [hc2]
                · simp only [hc2, if_false] at h0 ⊢
                  exact invokeLoop_calls_ge attempt mr fuel' (k + 2) _ _
          omega
        · simp only [hnext, if_false]
          have hkm : k + 1 = mr := by omega
          have hcalls : (invokeLoop attempt mr fuel (k + 1)
              (match attempt k with
                | AttemptResult.raised => r
                | AttemptResult.returned _ => cleanedOf (attempt k))
              s).calls ≤ mr :=
            invokeLoop_calls_le attempt mr fuel (k + 1) _ _ (by omega)
          have hge := invokeLoop_calls_ge attempt mr fuel (k + 1)
            (match attempt k with
              | AttemptResult.raised => r
              | AttemptResult.returned _ => cleanedOf (attempt k))
            s
          omega
    · simp [hlt]

/-- When every attempt cleans to blank and the threaded result is `""`,
the loop keeps threading `""`. -/
theorem invokeLoop_all_blank (attempt : Nat → AttemptResult) (mr : Nat)
    (hb : ∀ j, j < mr → cleanedOf (attempt j) = "") :
    ∀ (fuel k s : Nat), k ≤ mr → mr ≤ k + fuel →
      invokeLoop attempt mr fuel k "" s = ⟨"", mr, s + 2 * (mr - 1 - k)⟩ := by
  intro fuel
  induction fuel with
  | zero =>
    intro k s hk hmr
    have : k = mr := by omega
    subst this
    simp [invokeLoop]
  | succ fuel ih =>
    intro k s hk hmr
    rw [invokeLoop]
    by_cases hlt : k < mr
    · simp only [hlt, if_true, hb k hlt, ne_eq, not_true_eq_false, if_false]
      have hthread : (match attempt k with
          | AttemptResult.raised => ""
          | AttemptResult.returned _ => ("" : String)) = "" := by
        cases attempt k <;> rfl
      rw [hthread, ih (k + 1) _ (by omega) (by omega)]
      by_cases hnext : k + 1 < mr
      · simp only [hnext, if_true]
        congr 1
        omega
      · simp only [hnext, if_false]
        congr 1
        omega
    · have : k = mr := by omega
      subst this
      simp [hlt]

/-- Identical cleaned observations give identical traces (starting from
the reachable `result = ""` state). -/
theorem invokeLoop_congr (attempt attempt' : Nat → AttemptResult) (mr : Nat)
    (hobs : ∀ j, cleanedOf (attempt j) = cleanedOf (attempt' j)) :
    ∀ (fuel k s : Nat),
      invokeLoop attempt mr fuel k "" s = invokeLoop attempt' mr fuel k "" s := by
  intro fuel
  induction fuel with
  | zero => intro k s; rfl
  | succ fuel ih =>
    intro k s
    rw [invokeLoop, invokeLoop]
    by_cases hc : cleanedOf (attempt k) = ""
    · have hc' : cleanedOf (attempt' k) = "" := by rw [← hobs k]; exact hc
      simp only [hobs k, hc, hc', ne_eq, not_true_eq_false, if_false]
      by_cases hlt : k < mr
      · simp only [hlt, if_true]
        have h1 : (match attempt k with
            | AttemptResult.raised => ""
            | AttemptResult.returned _ => ("" : String)) = "" := by
          cases attempt k <;> rfl
        have h2 : (match attempt' k with
            | AttemptResult.raised => ""
            | AttemptResult.returned _ => ("" : String)) = "" := by
          cases attempt' k <;> rfl
        rw [h1, h2, ih (k + 1)]
      · simp [hlt]
    · have hc' : ¬ cleanedOf (attempt' k) = "" := by rw [← hobs k]; exact hc
      simp [hobs k, hc']

/-- A non-blank result is the cleaned text of one successful attempt. -/
theorem invokeLoop_result_src (attempt : Nat → AttemptResult) (mr : Nat) :
    ∀ (fuel k s : Nat),
      (invokeLoop attempt mr fuel k "" s).result ≠ "" →
        ∃ j r, j < mr ∧ attempt j = .returned r ∧
          (invokeLoop attempt mr fuel k "" s).result = cleanLLMResult r := by
  intro fuel
  induction fuel with
  | zero => intro k s h; simp [invokeLoop] at h
  | succ fuel ih =>
    intro k s h
    rw [invokeLoop] at h ⊢
    by_cases hlt : k < mr
    · simp only [hlt, if_true] at h ⊢
      by_cases hc : cleanedOf (attempt k) ≠ ""
      · rw [if_pos hc] at h ⊢
        cases hA : attempt k with
        | raised => rw [hA] at hc; simp [cleanedOf] at hc
        | returned r =>
          exact ⟨k, r, hlt, hA, rfl⟩
      · rw [if_neg hc] at h ⊢
        have hthread : (match attempt k with
            | AttemptResult.raised => ""
            | AttemptResult.returned _ => cleanedOf (attempt k)) = "" := by
          cases hA : attempt k with
          | raised => rfl
          | returned r =>
            rw [hA] at hc
            simpa using hc
        rw [hthread] at h ⊢
        exact ih (k + 1) _ h
    · simp only [hlt, if_false] at h
      simp at h

/-- **C7**.  `invoke_with_cleaning` with the default `max_retries = 3`:
it calls the completion service at most 3 times; it sleeps exactly 2
seconds between consecutive attempts (`2 * (calls - 1)` seconds in
total); a response that is empty after stripping the Markdown fence
markers is observationally identical to a raised transient error (only
`cleanedOf` matters to the trace); after exhausting all attempts it
returns the last (blank) result — the empty string, with 3 calls and 4
seconds slept — rather than raising; and any non-empty returned result
is the fence-stripped (`"\x60\x60\x60json"`, `"\x60\x60\x60"`),
whitespace-trimmed text of one of the at most 3 attempts.  The model is
a total function: no adapter exception escapes the wrapper. -/
theorem C7_invoke_with_cleaning_contract (attempt attempt' : Nat → AttemptResult) :
    (invokeWithCleaning attempt 3).calls ≤ 3 ∧
    (invokeWithCleaning attempt 3).sleepSeconds =
      2 * ((invokeWithCleaning attempt 3).calls - 1) ∧
    ((∀ j, cleanedOf (attempt j) = cleanedOf (attempt' j)) →
      invokeWithCleaning attempt 3 = invokeWithCleaning attempt' 3) ∧
    ((∀ j, j < 3 → cleanedOf (attempt j) = "") →
      invokeWithCleaning attempt 3 = ⟨"", 3, 4⟩) ∧
    ((invokeWithCleaning attempt 3).result ≠ "" →
      ∃ j r, j < 3 ∧ attempt j = .returned r ∧
        (invokeWithCleaning attempt 3).result = cleanLLMResult r) := by
  refine ⟨?_, ?_, ?_, ?_, ?_⟩
  · exact invokeLoop_calls_le attempt 3 3 0 "" 0 (by omega)
  · have h := invokeLoop_sleeps attempt 3 3 0 "" 0 (by omega)
    simpa [invokeWithCleaning] using h
  · intro hobs
    exact invokeLoop_congr attempt attempt' 3 hobs 3 0 0
  · intro hb
    have h := invokeLoop_all_blank attempt 3 hb 3 0 0 (by omega) (by omega)
    simpa [invokeWithCleaning] using h
  · intro h
    exact invokeLoop_result_src attempt 3 3 0 0 h

/-- **C7** (witness): the contract applied to a concrete always-fenced
adapter (immediate success: 1 call, no sleep, fences removed) and to a
concrete always-raising adapter (3 calls, 4 seconds slept, empty
result). -/
theorem C7_invoke_with_cleaning_contract_witness :
    (invokeWithCleaning (fun _ => .returned "```json hello```") 3).calls ≤ 3 ∧
    invokeWithCleaning (fun _ => .raised) 3 = ⟨"", 3, 4⟩ ∧
    (∃ j r, j < 3 ∧ (fun _ => AttemptResult.returned "```json hello```") j = .returned r ∧
      (invokeWithCleaning (fun _ => .returned "```json hello```") 3).result =
        cleanLLMResult r) ∧
    invokeWithCleaning (fun _ => .raised) 3 = invokeWithCleaning (fun _ => .raised) 3 :=
  ⟨(C7_invoke_with_cleaning_contract (fun _ => .returned "```json hello```")
      (fun _ => .returned "```json hello```")).1,
    (C7_invoke_with_cleaning_contract (fun _ => .raised) (fun _ => .raised)).2.2.2.1
      (fun _ _ => rfl),
    (C7_invoke_with_cleaning_contract (fun _ => .returned "```json hello```")
      (fun _ => .returned "```json hello```")).2.2.2.2 (by decide),
    (C7_invoke_with_cleaning_contract (fun _ => .raised) (fun _ => .raised)).2.2.1
      (fun _ => rfl)⟩

/-! Helper lemmas for the shape analysis of the merger (claim C3). -/

/-- Number of groups produced by the slicing. -/
theorem groupsOfF_length (k : Nat) :
    ∀ (n : Nat) (l : List JValue), l.length ≤ n →
      (groupsOfF n (k + 1) l).length = (l.length + k) / (k + 1) := by
  intro n
  induction n using Nat.strong_induction_on with
  | _ n ih =>
    intro l hn
    cases l with
    | nil =>
      have h0 : k / (k + 1) = 0 := Nat.div_eq_of_lt (Nat.lt_succ_self k)
      cases n <;> simp [groupsOfF, h0]
    | cons x xs =>
      simp only [List.length_cons] at hn
      cases n with
      | zero => omega
      | succ n' =>
        rw [groupsOfF]
        simp only [List.length_cons]
        have hdl : ((x :: xs).drop (k + 1)).length ≤ xs.length := by
          simp only [List.length_drop, List.length_cons]
          omega
        rw [ih n' (by omega) _ (by omega)]
        simp only [List.length_drop, List.length_cons]
        rcases Nat.lt_or_ge (xs.length + 1) (k + 1) with hsmall | hbig
        · have h1 : xs.length + 1 - (k + 1) = 0 := by omega
          rw [h1]
          have h2 : (0 + k) / (k + 1) = 0 := Nat.div_eq_of_lt (by omega)
          have h3 : (xs.length + 1 + k) / (k + 1) = 1 :=
            Nat.div_eq_of_lt_le (by omega) (by omega)
          omega
        · have h1 : xs.length + 1 + k = (xs.length + 1 - (k + 1) + k) + (k + 1) := by omega
          rw [h1, Nat.add_div_right _ (Nat.succ_pos k)]

/-- Slicing the empty list gives no groups, whatever the fuel. -/
theorem groupsOfF_nil : ∀ (n k : Nat), groupsOfF n k [] = [] := by
  intro n k
  cases n <;> cases k <;> rfl

/-- Every group is non-empty and draws its elements from the input. -/
theorem groupsOf_mem :
    ∀ (l : List JValue) (g : List JValue), g ∈ groupsOf 4 l →
      g ≠ [] ∧ ∀ x ∈ g, x ∈ l := by
  have main : ∀ (n : Nat) (l : List JValue), l.length ≤ n →
      ∀ g ∈ groupsOfF n 4 l, g ≠ [] ∧ ∀ x ∈ g, x ∈ l := by
    intro n
    induction n using Nat.strong_induction_on with
    | _ n ih =>
      intro l hn g hg
      cases l with
      | nil => rw [groupsOfF_nil] at hg; cases hg
      | cons x xs =>
        simp only [List.length_cons] at hn
        cases n with
        | zero => omega
        | succ n' =>
          rw [groupsOfF] at hg
          rcases List.mem_cons.mp hg with rfl | hgrec
          · refine ⟨by simp [List.take], ?_⟩
            intro y hy
            exact List.take_subset 4 (x :: xs) hy
          · have hdl : ((x :: xs).drop 4).length ≤ n' := by
              simp only [List.length_drop, List.length_cons]
              omega
            obtain ⟨hne, hsub⟩ := ih n' (by omega) _ hdl g hgrec
            exact ⟨hne, fun y hy => List.drop_subset 4 (x :: xs) (hsub y hy)⟩
  intro l g hg
  exact main l.length l (le_refl _) g hg

/-- A non-empty list of at most four results forms a single group. -/
theorem groupsOf_single (l : List JValue) (h1 : 1 ≤ l.length) (h4 : l.length ≤ 4) :
    groupsOf 4 l = [l] := by
  cases l with
  | nil => simp at h1
  | cons x xs =>
    rw [groupsOf]
    simp only [List.length_cons]
    rw [groupsOfF]
    simp only [List.length_cons] at h4
    rw [List.take_of_length_le (by simp; omega), List.drop_eq_nil_of_le (by simp; omega),
      groupsOfF_nil]

/-- The collection loop on groups whose merges all return non-`null`:
every group contributes exactly one element, and every collected element
is either from the accumulator or some group's merge value. -/
theorem collectMerged_ok (mergeGroup : List JValue → Except Unit JValue) :
    ∀ (gl : List (List JValue)) (acc : List JValue),
      (∀ g ∈ gl, ∃ v, mergeGroup g = .ok v ∧ v ≠ .jnull) →
      ∃ next, collectMerged mergeGroup gl acc = .ok next ∧
        next.length = acc.length + gl.length ∧
        ∀ r ∈ next, r ∈ acc ∨ ∃ g ∈ gl, mergeGroup g = .ok r := by
  intro gl
  induction gl with
  | nil =>
    intro acc _
    exact ⟨acc, rfl, by simp, fun r hr => Or.inl hr⟩
  | cons g rest ih =>
    intro acc hall
    obtain ⟨v, hv, hvnn⟩ := hall g (List.mem_cons_self g rest)
    obtain ⟨next, hnext, hlen, hmem⟩ :=
      ih (acc ++ [v]) (fun g' hg' => hall g' (List.mem_cons_of_mem g hg'))
    refine ⟨next, ?_, ?_, ?_⟩
    · rw [collectMerged, hv]
      cases v with
      | jnull => exact absurd rfl hvnn
      | jbool b => exact hnext
      | jnum q => exact hnext
      | jstr s => exact hnext
      | jarr xs => exact hnext
      | jobj fs => exact hnext
    · simp only [List.length_append, List.length_cons, List.length_nil] at hlen ⊢
      omega
    · intro r hr
      rcases hmem r hr with hacc | ⟨g', hg', hmg⟩
      · rcases List.mem_append.mp hacc with h | h
        · exact Or.inl h
        · simp only [List.mem_singleton] at h
          subst h
          exact Or.inr ⟨g, List.mem_cons_self g rest, hv⟩
      · exact Or.inr ⟨g', List.mem_cons_of_mem g hg', hmg⟩

/-- `_merge_worldview_data` never raises, so the non-characters fallback
fold is total. -/
theorem fallbackMergeDicts_total :
    ∀ (group : List JValue) (acc : List (String × JValue)),
      ∃ fs, fallbackMergeDicts .worldviewData group acc = .ok fs := by
  intro group
  induction group with
  | nil => intro acc; exact ⟨acc, rfl⟩
  | cons item rest ih =>
    intro acc
    cases item with
    | jobj fs => exact ih (mergeWorldviewData acc fs)
    | jnull => exact ih acc
    | jbool b => exact ih acc
    | jnum q => exact ih acc
    | jstr s => exact ih acc
    | jarr xs => exact ih acc

/-- When the AI response never parses, a group of two or more
non-characters results is merged by the structural fallback into a
dict. -/
theorem aiMergeGroup_fallback_obj (ai : List JValue → AIResp) (etype : String)
    (hnp : ∀ g v, ai g ≠ .parsed v) (hetype : etype ≠ "characters") :
    ∀ (g : List JValue), 2 ≤ g.length →
      ∃ fs, aiMergeGroup ai .worldviewData etype g = .ok (.jobj fs) := by
  intro g hg
  match g, hg with
  | a :: b :: rest, _ =>
    obtain ⟨fs, hfs⟩ := fallbackMergeDicts_total (a :: b :: rest) []
    cases hai : ai (a :: b :: rest) with
    | parsed v => exact absurd hai (hnp _ v)
    | empty =>
      refine ⟨fs, ?_⟩
      simp only [aiMergeGroup, hai, fallbackMergeGroup, if_neg hetype, hfs]
    | notJson =>
      refine ⟨fs, ?_⟩
      simp only [aiMergeGroup, hai, fallbackMergeGroup, if_neg hetype, hfs]

/-- The level loop fixes singletons, whatever the fuel. -/
theorem hmLoop_single (mergeGroup : List JValue → Except Unit JValue) :
    ∀ (fuel : Nat) (x : JValue), hmLoop mergeGroup 4 fuel [x] = .ok [x] := by
  intro fuel x
  cases fuel with
  | zero => rfl
  | succ f => rw [hmLoop]; simp

/-- Core of the amended C3: with a never-parsing AI response and no
`null` inputs, the level loop of a non-characters merge terminates on a
single dict. -/
theorem hmLoop_obj (ai : List JValue → AIResp) (etype : String)
    (hnp : ∀ g v, ai g ≠ .parsed v) (hetype : etype ≠ "characters") :
    ∀ (cur : List JValue), (∀ r ∈ cur, r ≠ .jnull) → 2 ≤ cur.length →
      ∀ (fuel : Nat), cur.length ≤ fuel →
        ∃ fs, hmLoop (aiMergeGroup ai .worldviewData etype) 4 fuel cur =
          .ok [.jobj fs] := by
  have hMG : ∀ (cur : List JValue), (∀ r ∈ cur, r ≠ .jnull) →
      ∀ g ∈ groupsOf 4 cur, ∃ v,
        aiMergeGroup ai .worldviewData etype g = .ok v ∧ v ≠ .jnull := by
    intro cur hnn g hg
    obtain ⟨hne, hsub⟩ := groupsOf_mem cur g hg
    match g, hne with
    | [x], _ => exact ⟨x, rfl, hnn x (hsub x (List.mem_singleton_self x))⟩
    | a :: b :: rest, _ =>
      obtain ⟨fs, hfs⟩ := aiMergeGroup_fallback_obj ai etype hnp hetype
        (a :: b :: rest) (by simp)
      exact ⟨.jobj fs, hfs, fun h => JValue.noConfusion h⟩
  suffices main : ∀ (n : Nat) (cur : List JValue), cur.length = n →
      (∀ r ∈ cur, r ≠ .jnull) → 2 ≤ cur.length → ∀ (fuel : Nat), cur.length ≤ fuel →
        ∃ fs, hmLoop (aiMergeGroup ai .worldviewData etype) 4 fuel cur =
          .ok [.jobj fs] by
    intro cur hnn h2 fuel hfuel
    exact main cur.length cur rfl hnn h2 fuel hfuel
  intro n
  induction n using Nat.strong_induction_on with
  | _ n ih =>
    intro cur hlencur hnn h2 fuel hfuel
    subst hlencur
    cases fuel with
    | zero => omega
    | succ f =>
      rw [hmLoop]
      have hgt : cur.length > 1 := by omega
      simp only [hgt, if_true]
      obtain ⟨next, hnext, hlen, hmem⟩ :=
        collectMerged_ok (aiMergeGroup ai .worldviewData etype) (groupsOf 4 cur) []
          (hMG cur hnn)
      rw [mergeLevel, hnext]
      dsimp only
      have hglen : (groupsOf 4 cur).length = (cur.length + 3) / 4 :=
        groupsOfF_length 3 cur.length cur (le_refl _)
      simp only [List.length_nil, Nat.zero_add] at hlen
      rcases Nat.lt_or_ge cur.length 5 with hsmall | hbig
      · -- one group of size 2..4: the level yields a single dict
        rw [groupsOf_single cur (by omega) (by omega)] at hnext hmem
        obtain ⟨fs, hfs⟩ := aiMergeGroup_fallback_obj ai etype hnp hetype cur h2
        have hnext1 : next = [.jobj fs] := by
          rw [groupsOf_single cur (by omega) (by omega)] at hlen
          simp only [List.length_singleton] at hlen
          match next, hlen with
          | [r], _ =>
            rcases hmem r (List.mem_singleton_self r) with h | ⟨g', hg', hmg⟩
            · cases h
            · simp only [List.mem_singleton] at hg'
              subst hg'
              rw [hfs] at hmg
              cases hmg
              rfl
        subst hnext1
        rw [hmLoop_single]
        exact ⟨fs, rfl⟩
      · -- at least two groups: recurse on the strictly shorter level
        have hnn2 : ∀ r ∈ next, r ≠ .jnull := by
          intro r hr
          rcases hmem r hr with h | ⟨g', hg', hmg⟩
          · cases h
          · obtain ⟨v, hv, hvnn⟩ := hMG cur hnn g' hg'
            rw [hv] at hmg
            cases hmg
            exact hvnn
        have hlen2 : 2 ≤ next.length := by
          rw [hlen, hglen]
          omega
        have hlt : next.length < cur.length := by
          rw [hlen, hglen]
          omega
        exact ih next.length hlt next rfl hnn2 hlen2 f (by omega)

/-- **C3** (counterexample).  The claimed shape invariant fails on two
counts.  (1) `_ai_merge_group` returns any successfully parsed AI
response as-is: when the AI merge of two worldview mappings returns the
well-formed JSON list `["x"]`, the final worldview representation is a
top-level list, not a mapping.  (2) Even the structural fallback does
not enforce name-uniqueness: `_merge_character_lists([], l)` returns `l`
unchanged, so a group whose first character list contains two entries
with the same non-empty name `"A"` merges to a list that still contains
both. -/
theorem C3_shape_invariant_counterexample :
    hierarchicalMergeResults [.jobj [("k", .jstr "v")], .jobj [("k2", .jstr "v2")]]
        (aiMergeGroup (fun _ => .parsed (.jarr [.jstr "x"])) .worldviewData "worldview")
        "worldview" 4 = .ok (.jarr [.jstr "x"]) ∧
      aiMergeGroup (fun _ => .empty) .characterLists "characters"
          [.jarr [.jobj [("name", .jstr "A"), ("age", .jnum 25)],
            .jobj [("name", .jstr "A"), ("x", .jstr "y")]], .jarr []] =
        .ok (.jarr [.jobj [("name", .jstr "A"), ("age", .jnum 25)],
          .jobj [("name", .jstr "A"), ("x", .jstr "y")]]) ∧
      pyGetDefault [("name", .jstr "A"), ("age", .jnum 25)] "name" (.jstr "") =
        .jstr "A" ∧
      pyGetDefault [("name", .jstr "A"), ("x", .jstr "y")] "name" (.jstr "") =
        .jstr "A" ∧
      pyTruthy (.jstr "A") = true :=
  ⟨rfl, rfl, rfl, rfl, rfl⟩

/-- **C3** (amended).  The shape invariant holds only on the structural
fallback path, and without name-uniqueness: (1) every characters
fallback merge output is a list (or an exception on malformed entries);
(2) every non-characters fallback merge output is a mapping; (3) for a
non-characters category, when no AI merge response parses (every
response empty or non-JSON) and no input is the JSON `null`, the final
value of `_hierarchical_merge_results` on two or more results is a
single mapping.  When the AI response parses, `_ai_merge_group` returns
it as-is, whatever its shape (the counterexample). -/
theorem C3_shape_invariant_amended :
    (∀ (mf : MergeFunc) (group : List JValue),
      fallbackMergeGroup mf "characters" group = .error () ∨
        ∃ l, fallbackMergeGroup mf "characters" group = .ok (.jarr l)) ∧
    (∀ (etype : String) (group : List JValue), etype ≠ "characters" →
      ∃ fs, fallbackMergeGroup .worldviewData etype group = .ok (.jobj fs)) ∧
    (∀ (ai : List JValue → AIResp) (etype : String) (results : List JValue),
      (∀ g v, ai g ≠ .parsed v) → etype ≠ "characters" →
      (∀ r ∈ results, r ≠ .jnull) → 2 ≤ results.length →
      ∃ fs, hierarchicalMergeResults results (aiMergeGroup ai .worldviewData etype)
        etype 4 = .ok (.jobj fs)) := by
  refine ⟨?_, ?_, ?_⟩
  · intro mf group
    rw [fallbackMergeGroup, if_pos rfl]
    cases h : fallbackMergeChars group [] with
    | error e => cases e; exact Or.inl rfl
    | ok l => exact Or.inr ⟨l, rfl⟩
  · intro etype group hetype
    rw [fallbackMergeGroup, if_neg hetype]
    obtain ⟨fs, hfs⟩ := fallbackMergeDicts_total group []
    rw [hfs]
    exact ⟨fs, rfl⟩
  · intro ai etype results hnp hetype hnn hlen
    match results, hlen with
    | a :: b :: rest, _ =>
      obtain ⟨fs, hfs⟩ := hmLoop_obj ai etype hnp hetype (a :: b :: rest) hnn
        (by simp) (a :: b :: rest).length (le_refl _)
      simp only [hierarchicalMergeResults, hfs]
      exact ⟨fs, rfl⟩

/-- **C3** (witness): the amended theorem applied at concrete inputs —
a characters fallback of one empty list, a plot fallback of one
mapping, and a two-mapping worldview merge whose AI responses are all
blank. -/
theorem C3_shape_invariant_amended_witness :
    (fallbackMergeGroup .characterLists "characters" [.jarr []] = .error () ∨
      ∃ l, fallbackMergeGroup .characterLists "characters" [.jarr []] = .ok (.jarr l)) ∧
    (∃ fs, fallbackMergeGroup .worldviewData "plot" [.jobj [("a", .jnum 1)]] =
      .ok (.jobj fs)) ∧
    (∃ fs, hierarchicalMergeResults [.jobj [("k", .jstr "v")], .jobj [("k2", .jstr "v2")]]
        (aiMergeGroup (fun _ => .empty) .worldviewData "worldview") "worldview" 4 =
      .ok (.jobj fs)) :=
  ⟨C3_shape_invariant_amended.1 .characterLists [.jarr []],
    C3_shape_invariant_amended.2.1 "plot" [.jobj [("a", .jnum 1)]] (by decide),
    C3_shape_invariant_amended.2.2 (fun _ => .empty) "worldview"
      [.jobj [("k", .jstr "v")], .jobj [("k2", .jstr "v2")]]
      (fun _ _ h => AIResp.noConfusion h) (by decide) (by simp) (by simp)⟩

/-- **C10**.  `extract_characters` never returns a non-list: every
normal return is a list, because the final guard (line 680) coerces a
non-list merged value to `[]` (second conjunct: the guard maps anything
that is not a list to the empty list).  `extract_worldview` and
`extract_plot_outline` apply no such guard: with a single segment whose
extraction parses to a JSON *list*, the parsed value flows through
(the non-dict case of lines 512-519 attaches no metadata and returns the
value unchanged), the singleton merge returns it untouched, and both
functions return a top-level list — not a mapping — to their callers. -/
theorem C10_extract_characters_type_guard :
    (∀ (cut : String → List String) (outcomes : Segment → LLMParse)
        (co : List Segment) (ai : List JValue → AIResp) (content : String) (v : JValue),
      extractCharacters cut outcomes co ai content = .ok v → ∃ l, v = .jarr l) ∧
    (∀ v : JValue, (∀ l, v ≠ .jarr l) → characterTypeGuard v = .jarr []) ∧
    extractWorldview cutWhole (fun _ => .json (.jarr [])) [⟨"w", 1, 0, 1, "seg_001"⟩]
        (fun _ => .empty) "w" = .ok (.jarr []) ∧
    extractPlotOutline cutWhole (fun _ => .json (.jarr [.jstr "z"]))
        [⟨"p", 1, 0, 1, "seg_001"⟩] (fun _ => .empty) "p" = .ok (.jarr [.jstr "z"]) := by
  refine ⟨?_, ?_, rfl, rfl⟩
  · intro cut outcomes co ai content v h
    simp only [extractCharacters] at h
    split at h
    · cases h
      exact ⟨[], rfl⟩
    · split at h
      · cases h
        exact ⟨[], rfl⟩
      · split at h
        · cases h
        · cases h
          rename_i final _
          cases final with
          | jarr l => exact ⟨l, rfl⟩
          | jnull => exact ⟨[], rfl⟩
          | jbool b => exact ⟨[], rfl⟩
          | jnum q => exact ⟨[], rfl⟩
          | jstr s => exact ⟨[], rfl⟩
          | jobj fs => exact ⟨[], rfl⟩
  · intro v hv
    cases v with
    | jarr l => exact absurd rfl (hv l)
    | jnull => rfl
    | jbool b => rfl
    | jnum q => rfl
    | jstr s => rfl
    | jobj fs => rfl

/-- **C10** (witness): the list-guarantee applied to a concrete
single-segment run whose extraction parses a one-character list, and the
guard applied to a mapping. -/
theorem C10_extract_characters_type_guard_witness :
    (∃ l, JValue.jarr [.jobj [("name", .jstr "A"),
        ("_segment_metadata", .jobj [("order", .jnum 1), ("segment_id", .jstr "seg_001"),
          ("start_pos", .jnum 0), ("end_pos", .jnum 1)])]] = .jarr l) ∧
    characterTypeGuard (.jobj []) = .jarr [] :=
  ⟨C10_extract_characters_type_guard.1 cutWhole
      (fun _ => .json (.jarr [.jobj [("name", .jstr "A")]]))
      [⟨"c", 1, 0, 1, "seg_001"⟩] (fun _ => .empty) "c"
      (.jarr [.jobj [("name", .jstr "A"),
        ("_segment_metadata", .jobj [("order", .jnum 1), ("segment_id", .jstr "seg_001"),
          ("start_pos", .jnum 0), ("end_pos", .jnum 1)])]]) (by rfl),
    C10_extract_characters_type_guard.2.1 (.jobj []) (fun l h => JValue.noConfusion h)⟩

/-! Helper lemmas for the concurrent dispatcher. -/

/-- `results_dict` lookup after an insertion. -/
theorem lookupNat_dictSetNat :
    ∀ (d : List (Nat × JValue)) (k : Nat) (v : JValue) (j : Nat),
      lookupNat (dictSetNat d k v) j = if k = j then some v else lookupNat d j := by
  intro d
  induction d with
  | nil => intro k v j; rfl
  | cons a rest ih =>
    intro k v j
    obtain ⟨ak, av⟩ := a
    rw [dictSetNat]
    by_cases hak : ak = k
    · subst hak
      by_cases hkj : ak = j <;> simp [lookupNat, hkj]
    · by_cases haj : ak = j
      · subst haj
        have hkj : ¬ k = ak := fun h => hak h.symm
        simp [hak, lookupNat, hkj]
      · by_cases hkj : k = j <;> simp [hak, lookupNat, haj, hkj, ih]

/-- Completions whose `order` differs from `j` leave key `j` of
`results_dict` untouched. -/
theorem lookup_collect_other (extract : Segment → Option JValue) :
    ∀ (co : List Segment) (d : List (Nat × JValue)) (j : Nat),
      (∀ s ∈ co, s.order ≠ j) →
      lookupNat (co.foldl (fun d s =>
        match extract s with
        | some r => dictSetNat d s.order r
        | none => d) d) j = lookupNat d j := by
  intro co
  induction co with
  | nil => intro d j h; rfl
  | cons t rest ih =>
    intro d j h
    rw [List.foldl_cons, ih _ j (fun s hs => h s (List.mem_cons_of_mem t hs))]
    cases hx : extract t with
    | none => rfl
    | some r =>
      rw [lookupNat_dictSetNat]
      simp [h t (List.mem_cons_self t rest)]

/-- With distinct orders, after all completions the dict holds, at each
segment's `order`, exactly that segment's extraction result (absent when
the extraction returned `None`). -/
theorem lookup_collect (extract : Segment → Option JValue) :
    ∀ (co : List Segment) (d : List (Nat × JValue)) (s : Segment),
      (co.map Segment.order).Nodup → s ∈ co → lookupNat d s.order = none →
      lookupNat (co.foldl (fun d s =>
        match extract s with
        | some r => dictSetNat d s.order r
        | none => d) d) s.order = extract s := by
  intro co
  induction co with
  | nil => intro d s _ hs _; cases hs
  | cons t rest ih =>
    intro d s hnv hs hd
    simp only [List.map_cons, List.nodup_cons] at hnv
    rw [List.foldl_cons]
    rcases List.mem_cons.mp hs with rfl | hmem
    · have hnotmem : ∀ u ∈ rest, u.order ≠ s.order := by
        intro u hu he
        exact hnv.1 (he ▸ List.mem_map_of_mem Segment.order hu)
      rw [lookup_collect_other extract rest _ s.order hnotmem]
      cases hx : extract s with
      | none => simpa [hx] using hd
      | some r => simp [hx, lookupNat_dictSetNat]
    · have ht : t.order ≠ s.order := by
        intro he
        exact hnv.1 (he ▸ List.mem_map_of_mem Segment.order hmem)
      apply ih _ s hnv.2 hmem
      cases hx : extract t with
      | none => simpa [hx] using hd
      | some r => simp [hx, lookupNat_dictSetNat, ht, hd]

/-- When the dict agrees with the extraction on every listed segment,
the re-ordering loop produces exactly the non-null results in original
order. -/
theorem rebuildOrdered_filterMap (extract : Segment → Option JValue)
    (d : List (Nat × JValue)) :
    ∀ (segs : List Segment), (∀ s ∈ segs, lookupNat d s.order = extract s) →
      rebuildOrdered d segs = segs.filterMap extract := by
  intro segs
  induction segs with
  | nil => intro _; rfl
  | cons s rest ih =>
    intro h
    have hs := h s (List.mem_cons_self s rest)
    rw [rebuildOrdered, List.filterMap_cons, hs]
    cases hx : extract s with
    | none => exact ih (fun u hu => h u (List.mem_cons_of_mem s hu))
    | some r => rw [ih (fun u hu => h u (List.mem_cons_of_mem s hu))]

/-- **C1**.  For chunks carrying the distinct orders `1..N`, the
dispatcher's output is exactly `segments.filterMap extract`: it contains
precisely the non-null per-chunk results (a chunk whose extraction
returned `None` — covering blank responses, shape errors and raised
task exceptions — is simply absent, never replaced by a placeholder),
in the original chunk order, for **every** completion order of the
worker pool (`as_completed` is modelled by an arbitrary permutation;
`max_concurrency` only bounds parallelism and selects which permutations
can occur, so the result is independent of it for any value in
`[1, N]`).  The retained results' orders are strictly increasing. -/
theorem C1_dispatcher_order_preserving (extract : Segment → Option JValue)
    (segments completion_order : List Segment)
    (horders : segments.map Segment.order = List.range' 1 segments.length)
    (hperm : completion_order.Perm segments) :
    processSegmentConcurrently extract segments completion_order =
        segments.filterMap extract ∧
      List.Pairwise (· < ·)
        ((segments.filter (fun s => (extract s).isSome)).map Segment.order) := by
  have hnodup_seg : (segments.map Segment.order).Nodup := by
    rw [horders]
    exact List.nodup_range' 1 segments.length
  have hnodup_co : (completion_order.map Segment.order).Nodup :=
    ((hperm.map Segment.order).nodup_iff).mpr hnodup_seg
  constructor
  · rw [processSegmentConcurrently, buildResultsDict]
    apply rebuildOrdered_filterMap
    intro s hs
    exact lookup_collect extract completion_order [] s hnodup_co
      (hperm.mem_iff.mpr hs) rfl
  · have hsub := (List.filter_sublist (p := fun s => (extract s).isSome) segments).map
      Segment.order
    refine List.Pairwise.sublist hsub ?_
    rw [horders]
    exact List.pairwise_lt_range' 1 segments.length

/-- **C1** (witness): three chunks with orders 1, 2, 3, the middle
extraction failing, completed in the order 3, 1, 2 — the theorem applies
and the output is the two surviving results in original order. -/
theorem C1_dispatcher_order_preserving_witness :
    processSegmentConcurrently
        (fun s : Segment => if s.order = 2 then none else some (.jstr s.segment_id))
        ([⟨"aa", 1, 0, 2, "seg_001"⟩, ⟨"bb", 2, 2, 4, "seg_002"⟩,
          ⟨"cc", 3, 4, 6, "seg_003"⟩] : List Segment)
        ([⟨"cc", 3, 4, 6, "seg_003"⟩, ⟨"aa", 1, 0, 2, "seg_001"⟩,
          ⟨"bb", 2, 2, 4, "seg_002"⟩] : List Segment) =
      ([⟨"aa", 1, 0, 2, "seg_001"⟩, ⟨"bb", 2, 2, 4, "seg_002"⟩,
        ⟨"cc", 3, 4, 6, "seg_003"⟩] : List Segment).filterMap
        (fun s : Segment => if s.order = 2 then none else some (.jstr s.segment_id)) :=
  (C1_dispatcher_order_preserving
    (fun s : Segment => if s.order = 2 then none else some (.jstr s.segment_id))
    ([⟨"aa", 1, 0, 2, "seg_001"⟩, ⟨"bb", 2, 2, 4, "seg_002"⟩,
      ⟨"cc", 3, 4, 6, "seg_003"⟩] : List Segment)
    ([⟨"cc", 3, 4, 6, "seg_003"⟩, ⟨"aa", 1, 0, 2, "seg_001"⟩,
      ⟨"bb", 2, 2, 4, "seg_002"⟩] : List Segment)
    (by decide) (by decide)).1

/-- **C9**.  If the AI merge response of a group of two or more results
parses to the JSON literal `null` (Python `None`), `_ai_merge_group`
returns it as-is — no structural fallback runs — and, since the level
loop of `_hierarchical_merge_results` only keeps results that
`are not None`, that group's contribution is silently dropped.
Concretely, merging the two worldview fragments
`{"k": "v"}` and `{"k2": "v2"}` when the AI merge parses to `null`
yields the category's empty value `{}` instead of a merge of the
inputs. -/
theorem C9_null_ai_merge_drops_group :
    (∀ (ai : List JValue → AIResp) (mf : MergeFunc) (etype : String) (group : List JValue),
      2 ≤ group.length → ai group = .parsed .jnull →
        aiMergeGroup ai mf etype group = .ok .jnull) ∧
    hierarchicalMergeResults [.jobj [("k", .jstr "v")], .jobj [("k2", .jstr "v2")]]
        (aiMergeGroup (fun _ => .parsed .jnull) .worldviewData "worldview") "worldview" 4 =
      .ok (.jobj []) := by
  constructor
  · intro ai mf etype group hlen hai
    match group with
    | [] => simp at hlen
    | [x] => simp at hlen
    | a :: b :: rest => simp [aiMergeGroup, hai]
  · rfl

/-- **C9** (witness): the first part applied to the concrete two-element
worldview group of the second part. -/
theorem C9_null_ai_merge_drops_group_witness :
    aiMergeGroup (fun _ => .parsed .jnull) .worldviewData "worldview"
        [.jobj [("k", .jstr "v")], .jobj [("k2", .jstr "v2")]] = .ok .jnull :=
  C9_null_ai_merge_drops_group.1 (fun _ => .parsed .jnull) .worldviewData "worldview"
    [.jobj [("k", .jstr "v")], .jobj [("k2", .jstr "v2")]] (by decide) rfl

/-! Helper lemmas for the hierarchical merger. -/

/-- The collection loop can only grow the accumulator by one element per
group. -/
theorem collectMerged_length (mergeGroup : List JValue → Except Unit JValue) :
    ∀ (gs : List (List JValue)) (acc r : List JValue),
      collectMerged mergeGroup gs acc = .ok r → r.length ≤ acc.length + gs.length := by
  intro gs
  induction gs with
  | nil =>
    intro acc r h
    simp only [collectMerged] at h
    cases h
    simp
  | cons g rest ih =>
    intro acc r h
    rw [collectMerged] at h
    cases hm : mergeGroup g with
    | error e => rw [hm] at h; cases h
    | ok m =>
      rw [hm] at h
      cases m with
      | jnull =>
        have := ih acc r h
        simp only [List.length_cons]
        omega
      | jbool b => have := ih _ r h; simp_all; omega
      | jnum q => have := ih _ r h; simp_all; omega
      | jstr s => have := ih _ r h; simp_all; omega
      | jarr xs => have := ih _ r h; simp_all; omega
      | jobj fs => have := ih _ r h; simp_all; omega

/-- When the group merge is total, the collection loop is total. -/
theorem collectMerged_total (mergeGroup : List JValue → Except Unit JValue)
    (htot : ∀ g, ∃ v, mergeGroup g = .ok v) :
    ∀ (gs : List (List JValue)) (acc : List JValue),
      ∃ r, collectMerged mergeGroup gs acc = .ok r := by
  intro gs
  induction gs with
  | nil => intro acc; exact ⟨acc, rfl⟩
  | cons g rest ih =>
    intro acc
    obtain ⟨v, hv⟩ := htot g
    rw [collectMerged, hv]
    cases v with
    | jnull => exact ih acc
    | jbool b => exact ih _
    | jnum q => exact ih _
    | jstr s => exact ih _
    | jarr xs => exact ih _
    | jobj fs => exact ih _

/-- One merge level strictly shrinks a list of two or more results
(`⌈len/4⌉ < len`). -/
theorem mergeLevel_shrinks (mergeGroup : List JValue → Except Unit JValue)
    (cur next : List JValue) (h2 : 2 ≤ cur.length)
    (h : mergeLevel mergeGroup 4 cur = .ok next) : next.length < cur.length := by
  have hlen := collectMerged_length mergeGroup (groupsOf 4 cur) [] next h
  have hg : (groupsOf 4 cur).length = (cur.length + 3) / 4 :=
    groupsOfF_length 3 cur.length cur (le_refl _)
  simp only [List.length_nil, Nat.zero_add] at hlen
  omega

/-- The level loop computes the same answer from any fuel at least the
list length: the `while` loop of `_hierarchical_merge_results`
terminates within `len` iterations. -/
theorem hmLoop_fuel (mergeGroup : List JValue → Except Unit JValue) :
    ∀ (n m : Nat) (cur : List JValue), cur.length ≤ n → cur.length ≤ m →
      hmLoop mergeGroup 4 n cur = hmLoop mergeGroup 4 m cur := by
  intro n
  induction n using Nat.strong_induction_on with
  | _ n ih =>
    intro m cur hn hm
    by_cases hlen : cur.length > 1
    · cases n with
      | zero => omega
      | succ n' =>
        cases m with
        | zero => omega
        | succ m' =>
          rw [hmLoop, hmLoop]
          simp only [hlen, if_true]
          cases hml : mergeLevel mergeGroup 4 cur with
          | error e => rfl
          | ok next =>
            have hlt := mergeLevel_shrinks mergeGroup cur next (by omega) hml
            exact ih n' (by omega) m' next (by omega) (by omega)
    · cases n with
      | zero =>
        cases m with
        | zero => rfl
        | succ m' => rw [hmLoop, hmLoop]; simp [hlen]
      | succ n' =>
        cases m with
        | zero => rw [hmLoop, hmLoop]; simp [hlen]
        | succ m' => rw [hmLoop, hmLoop]; simp [hlen]

/-- When the group merge is total, the level loop is total. -/
theorem hmLoop_total (mergeGroup : List JValue → Except Unit JValue)
    (htot : ∀ g, ∃ v, mergeGroup g = .ok v) :
    ∀ (fuel : Nat) (cur : List JValue), ∃ r, hmLoop mergeGroup 4 fuel cur = .ok r := by
  intro fuel
  induction fuel with
  | zero => intro cur; exact ⟨cur, rfl⟩
  | succ fuel ih =>
    intro cur
    rw [hmLoop]
    by_cases hlen : cur.length > 1
    · simp only [hlen, if_true]
      obtain ⟨next, hnext⟩ := collectMerged_total mergeGroup htot (groupsOf 4 cur) []
      rw [mergeLevel, hnext]
      exact ih next
    · simp only [hlen, if_false]
      exact ⟨cur, rfl⟩

/-- **C2**.  `_hierarchical_merge_results` with the default
`group_size = 4`: on `[]` it returns the category's empty value (`{}`
for worldview/plot, `[]` for characters); on a one-element list it
returns that element unchanged; on length ≥ 2, whenever the per-group
merge returns (as `_ai_merge_group` does unless its structural fallback
raises on malformed character data), the whole merge terminates with a
single merged value.  Termination is expressed by fuel-independence:
the model's level loop, run with fuel `len` (its canonical amount),
computes the same answer as with any larger fuel, i.e. the source's
unbounded `while len > 1` loop exits within `len` iterations — each
level maps `len` to `⌈len/4⌉ < len` (`mergeLevel_shrinks`). -/
theorem C2_hierarchical_merge_contract (mergeGroup : List JValue → Except Unit JValue)
    (etype : String) (results : List JValue) :
    (results = [] →
      hierarchicalMergeResults results mergeGroup etype 4 = .ok (emptyValue etype)) ∧
    (∀ x, results = [x] → hierarchicalMergeResults results mergeGroup etype 4 = .ok x) ∧
    (emptyValue "worldview" = .jobj [] ∧ emptyValue "plot" = .jobj [] ∧
      emptyValue "characters" = .jarr []) ∧
    (2 ≤ results.length → (∀ g, ∃ v, mergeGroup g = .ok v) →
      ∃ v, hierarchicalMergeResults results mergeGroup etype 4 = .ok v) ∧
    (∀ extra, hmLoop mergeGroup 4 (results.length + extra) results =
      hmLoop mergeGroup 4 results.length results) := by
  refine ⟨?_, ?_, ⟨rfl, rfl, rfl⟩, ?_, ?_⟩
  · intro h; subst h; rfl
  · intro x h; subst h; rfl
  · intro hlen htot
    match results, hlen with
    | a :: b :: rest, _ =>
      obtain ⟨r, hr⟩ := hmLoop_total mergeGroup htot (a :: b :: rest).length (a :: b :: rest)
      simp only [hierarchicalMergeResults, hr]
      cases r with
      | nil => exact ⟨emptyValue etype, rfl⟩
      | cons c cs => exact ⟨c, rfl⟩
  · intro extra
    exact hmLoop_fuel mergeGroup (results.length + extra) results.length results
      (by omega) (le_refl _)

/-- **C2** (witness): the contract applied at concrete inputs — the
empty list, a singleton, and a two-element worldview list with a total
group merge; plus the loop run with surplus fuel. -/
theorem C2_hierarchical_merge_contract_witness :
    hierarchicalMergeResults [] (fun _ => .ok (.jobj [])) "worldview" 4 =
        .ok (emptyValue "worldview") ∧
    hierarchicalMergeResults [.jstr "solo"] (fun _ => .ok (.jobj [])) "characters" 4 =
        .ok (.jstr "solo") ∧
    (∃ v, hierarchicalMergeResults [.jobj [("a", .jnum 1)], .jobj [("b", .jnum 2)]]
        (fun _ => .ok (.jobj [])) "worldview" 4 = .ok v) ∧
    hmLoop (fun _ => .ok (.jobj [])) 4 (2 + 7) [.jobj [("a", .jnum 1)], .jobj [("b", .jnum 2)]] =
      hmLoop (fun _ => .ok (.jobj [])) 4 2 [.jobj [("a", .jnum 1)], .jobj [("b", .jnum 2)]] :=
  ⟨(C2_hierarchical_merge_contract (fun _ => .ok (.jobj [])) "worldview" []).1 rfl,
    (C2_hierarchical_merge_contract (fun _ => .ok (.jobj [])) "characters"
      [.jstr "solo"]).2.1 (.jstr "solo") rfl,
    (C2_hierarchical_merge_contract (fun _ => .ok (.jobj [])) "worldview"
      [.jobj [("a", .jnum 1)], .jobj [("b", .jnum 2)]]).2.2.2.1 (by decide)
      (fun g => ⟨.jobj [], rfl⟩),
    (C2_hierarchical_merge_contract (fun _ => .ok (.jobj [])) "worldview"
      [.jobj [("a", .jnum 1)], .jobj [("b", .jnum 2)]]).2.2.2.2 7⟩

/-- **C6** (counterexample).  The claim says the single chunk's text
equals the *trimmed* input.  On input `" a"` (length 2 ≤ 10) the source
returns the text *untrimmed* (`"text": content` at line 111, with no
`.strip()`), so it differs from the trimmed input. -/
theorem C6_short_input_text_not_trimmed :
    splitTextIntoSegments cutWhole " a" 10 = [⟨" a", 1, 0, 2, "seg_001"⟩] ∧
      pyStrip " a" ≠ " a" := by
  constructor
  · rfl
  · decide

/-- **C6** (amended).  For every tokenizer and every text whose
whitespace-trim is non-empty and whose length is at most
`max_chunk_size`, `split_text_into_segments` returns exactly one chunk
whose text is the input *unchanged* (not trimmed), with `order = 1`,
`start_pos = 0`, `end_pos = len(text)` and `segment_id = "seg_001"`. -/
theorem C6_short_input_single_chunk (cut : String → List String) (content : String)
    (segment_size : Nat) (hne : pyStrip content ≠ "") (hlen : content.length ≤ segment_size) :
    splitTextIntoSegments cut content segment_size =
      [⟨content, 1, 0, content.length, "seg_001"⟩] := by
  unfold splitTextIntoSegments
  rw [if_neg hne, if_pos hlen]

/-- **C6** (witness): the amended theorem applied at `"ab"`, chunk size
10. -/
theorem C6_short_input_single_chunk_witness :
    splitTextIntoSegments cutWhole "ab" 10 = [⟨"ab", 1, 0, 2, "seg_001"⟩] :=
  C6_short_input_single_chunk cutWhole "ab" 10 (by decide) (by decide)

/-- **C4**.  The claim (and the repository's own test intent, see
`test_hierarchical_processing.py` lines 37-39) says word-boundary
shortening never discards non-whitespace source text.  The code is
wrong: the slicing cursor advances by `segment_size` (line 123) even
when the chunk was shortened to `split_point` characters (line 142), so
the characters between `split_point` and `segment_size` are silently
dropped.  Concretely, for content `"abcdef"`, `segment_size = 4` and a
tokenizer splitting the slice `"abcd"` into the words `"ab"`/`"cd"`, the
returned chunks are `"ab"` and `"ef"`: the non-whitespace substring
`"cd"` appears in no chunk, although the input contains no whitespace at
all. -/
theorem C4_segmentation_discards_text :
    pyJoin "" (cutAbcd "abcd") = "abcd" ∧
      (splitTextIntoSegments cutAbcd "abcdef" 4).map Segment.text = ["ab", "ef"] ∧
      (∀ c ∈ "abcdef".toList, ¬c.isWhitespace) ∧
      ("ab" ++ "ef").length < "abcdef".length := by
  refine ⟨by rfl, by rfl, by decide, by decide⟩

/-- **C5**.  `_merge_character_lists` de-duplicates by non-empty name:
merging `[{"name":"A","age":25}]` with `[{"name":"A","description":"hero"}]`
yields exactly one entry for `"A"` carrying both `age` and
`description`; merging `[{"name":"A"}]` with `[{"name":"B"}]` yields two
entries; and merging `[{"name":"A","age":25},{"name":"B"}]` with
`[{"name":"B","x":1}]` deep-merges into the existing `"B"` entry while
preserving its list position. -/
theorem C5_merge_character_lists_dedup :
    mergeCharacterLists [.jobj [("name", .jstr "A"), ("age", .jnum 25)]]
        [.jobj [("name", .jstr "A"), ("description", .jstr "hero")]] =
      .ok [.jobj [("name", .jstr "A"), ("age", .jnum 25), ("description", .jstr "hero")]] ∧
    mergeCharacterLists [.jobj [("name", .jstr "A")]] [.jobj [("name", .jstr "B")]] =
      .ok [.jobj [("name", .jstr "A")], .jobj [("name", .jstr "B")]] ∧
    mergeCharacterLists
        [.jobj [("name", .jstr "A"), ("age", .jnum 25)], .jobj [("name", .jstr "B")]]
        [.jobj [("name", .jstr "B"), ("x", .jnum 1)]] =
      .ok [.jobj [("name", .jstr "A"), ("age", .jnum 25)],
        .jobj [("name", .jstr "B"), ("x", .jnum 1)]] := by
  refine ⟨by rfl, by rfl, by rfl⟩

/-- **C8**.  `extract_with_vector_context` never raises, and both
degraded paths return exactly the first 2000 characters of the chunk
text: when no similarity index is attached, and when the index's
`similarity_search` raises (the exception is caught and logged). -/
theorem C8_vector_context_fallback (content query : String) (top_k : Nat) :
    extractWithVectorContext none content query top_k = strTake content 2000 ∧
      (∀ (search : String → Nat → Except Unit (List String)),
        search query top_k = .error () →
          extractWithVectorContext (some search) content query top_k = strTake content 2000) := by
  constructor
  · rfl
  · intro search h
    simp only [extractWithVectorContext, h]

/-- **C8** (witness): the theorem applied at a concrete chunk text,
query, `top_k = 8` and an always-raising search boundary. -/
theorem C8_vector_context_fallback_witness :
    extractWithVectorContext none "some chunk text" "query" 8 =
        strTake "some chunk text" 2000 ∧
      extractWithVectorContext (some fun _ _ => .error ()) "some chunk text" "query" 8 =
        strTake "some chunk text" 2000 :=
  ⟨(C8_vector_context_fallback "some chunk text" "query" 8).1,
    (C8_vector_context_fallback "some chunk text" "query" 8).2 (fun _ _ => .error ()) rfl⟩

end KnowledgeParser
